import Mathlib

/-!
Shallow embedding of the changelog-watcher program (src/src/main.rs).

A document is the raw character sequence of a snapshot; lines are lists
of characters, obtained with `splitLines` (Rust's `split('\n')`).  The
Rust `Vec<String> changes` is modelled with the most recently pushed
block at the head of the list; the final result reverses it.  Every
`unwrap()` whose receiver can be `None` (or an empty `Vec`) is modelled
as an `Except.error` outcome, with one error constructor per panic site.
-/

abbrev Line : Type := List Char

def UNRELEASED_HEADER : Line := ("## [Unreleased]").toList

def H2 : Line := ['#', '#', ' ']

def DASH : Line := ['-', ' ']

/-- Models `line.starts_with("## ")` (src/src/main.rs lines 48, 58, 83). -/
def isTopHeader : Line → Bool
  | '#' :: '#' :: ' ' :: _ => true
  | _ => false

/-- Models `line.starts_with("### ")` (src/src/main.rs lines 39, 54, 75). -/
def isSubHeader : Line → Bool
  | '#' :: '#' :: '#' :: ' ' :: _ => true
  | _ => false

/-- Models `line.starts_with("- ")` (src/src/main.rs line 66). -/
def isBullet : Line → Bool
  | '-' :: ' ' :: _ => true
  | _ => false

/-- Rust `str::split('\n')`: yields one more piece than there are
separators, so the result is never empty. -/
def splitLines : List Char → List Line
  | [] => [[]]
  | c :: cs =>
    if c = '\n' then [] :: splitLines cs
    else
      match splitLines cs with
      | [] => [[c]]
      | l :: ls => (c :: l) :: ls

/-- The old-cursor skip condition of src/src/main.rs lines 39 and 75:
`is_empty() || starts_with("### ")`. -/
def isNoise (l : Line) : Bool := l.isEmpty || isSubHeader l

/-- Models `while it.next().unwrap() != UNRELEASED_HEADER {}` at
src/src/main.rs lines 38 and 44: returns the lines after the marker,
`none` when the iterator is exhausted first (an `unwrap` panic). -/
def skipToMarker : List Line → Option (List Line)
  | [] => none
  | l :: ls => if l = UNRELEASED_HEADER then some ls else skipToMarker ls

/-- Models the peek-and-skip loop over blank lines and sub-section
headers at src/src/main.rs lines 39-41 and 75-77; `none` models the
`peek().unwrap()` panic on an exhausted iterator. -/
def skipNoise : List Line → Option (List Line)
  | [] => none
  | l :: ls => if isNoise l then skipNoise ls else some (l :: ls)

inductive ExtractErr : Type where
  | oldNoMarker
  | newNoMarker
  | oldExhausted
  | noLastEntry
  deriving DecidableEq, Repr

/-- Models src/src/main.rs lines 57-61 and 82-86: remove the most recent
block when it is a `## ` header (the changes list is most-recent-first
here). -/
def popLastHeader : List Line → List Line
  | c :: cs => if isTopHeader c then cs else c :: cs
  | [] => []

/-- The `for line in new` loop of src/src/main.rs lines 47-79.  The
changes list is most-recent-first.  `l.drop 1` is the character-level
reading of the byte slice `&line[1..]`; `sliceFrom1` below models the
byte-level behaviour of that slice. -/
def processLines : List Line → List Line → List Line → Except ExtractErr (List Line)
  | [], _, changes => .ok changes
  | l :: rest, old, changes =>
    if isTopHeader l then
      .ok changes
    else if l.isEmpty then
      processLines rest old changes
    else if isSubHeader l then
      processLines rest old ((H2 ++ l.drop 4) :: popLastHeader changes)
    else
      match old with
      | [] => .error .oldExhausted
      | o :: old1 =>
        if l ≠ o then
          if isBullet l then
            processLines rest (o :: old1) (l :: changes)
          else
            match changes with
            | [] => .error .noLastEntry
            | c :: cs => processLines rest (o :: old1) ((c ++ l.drop 1) :: cs)
        else
          match skipNoise old1 with
          | none => .error .oldExhausted
          | some old2 => processLines rest old2 changes

/-- The change extraction of src/src/main.rs lines 37-86: position both
cursors past the unreleased marker (skipping structural noise in the old
document), walk the new document, then suppress a trailing header-only
block. -/
def extract (oldDoc newDoc : List Char) : Except ExtractErr (List Line) :=
  match skipToMarker (splitLines oldDoc) with
  | none => .error .oldNoMarker
  | some oldRest =>
    match skipNoise oldRest with
    | none => .error .oldExhausted
    | some old =>
      match skipToMarker (splitLines newDoc) with
      | none => .error .newNoMarker
      | some newRest =>
        match processLines newRest old [] with
        | .error e => .error e
        | .ok changes => .ok (popLastHeader changes).reverse

/-- The feed extractor of src/src/main.rs lines 97-100: the first old
entry is the sentinel; take new entries up to (excluding) the first one
equal to it.  The bullet-marker mapping and the fold into the changes
list (lines 101-107) are in `appendDevblogs`. -/
def extract_new (old_entries new_entries : List Line) : List Line :=
  match old_entries with
  | [] => []
  | o :: _ => new_entries.takeWhile (fun s => s != o)

def BLOG_HEADER : Line := ("## Blog post(s)").toList

/-- Models src/src/main.rs lines 97-107: bullet-prefix each new feed
entry and, when any exist, append them under a synthesized header. -/
def appendDevblogs (changes : List Line) (devblogs_old devblogs_new : List Char) :
    List Line :=
  let nb := (extract_new (splitLines devblogs_old) (splitLines devblogs_new)).map
    (fun s => DASH ++ s)
  if nb.isEmpty then changes else changes ++ BLOG_HEADER :: nb

/-- Rust `Vec::join("\n")`. -/
def joinLines : List Line → Line
  | [] => []
  | [l] => l
  | l :: ls => l ++ '\n' :: joinLines ls

def TITLE : Line := ("# Veloren News!\n").toList

/-- The message built at src/src/main.rs line 117:
`"# Veloren News!\n".to_string() + &changes.join("\n")`. -/
def formatMessage (changes : List Line) : Line := TITLE ++ joinLines changes

/-- Rust `str::is_char_boundary` on a UTF-8 byte sequence. -/
def charBoundary (bytes : List Nat) (i : Nat) : Bool :=
  if i = 0 then true
  else
    match bytes.get? i with
    | some b => decide (b < 128) || decide (192 ≤ b)
    | none => decide (i = bytes.length)

/-- Byte-level model of the slice `&line[1..]` at src/src/main.rs line
69: defined when `1 ≤ len` and byte offset 1 is a character boundary,
a panic (`none`) otherwise. -/
def sliceFrom1 (bytes : List Nat) : Option (List Nat) :=
  if 1 ≤ bytes.length ∧ charBoundary bytes 1 then some (bytes.drop 1) else none

/-- The UTF-8 encoding of one scalar value, as Rust `str` stores it. -/
def utf8EncodeChar (c : Char) : List Nat :=
  if c.toNat < 128 then [c.toNat]
  else if c.toNat < 2048 then [192 + c.toNat / 64, 128 + c.toNat % 64]
  else if c.toNat < 65536 then
    [224 + c.toNat / 4096, 128 + c.toNat / 64 % 64, 128 + c.toNat % 64]
  else [240 + c.toNat / 262144, 128 + c.toNat / 4096 % 64, 128 + c.toNat / 64 % 64,
    128 + c.toNat % 64]

/-- The UTF-8 byte sequence of a line. -/
def utf8Encode (l : List Char) : List Nat := (l.map utf8EncodeChar).flatten

deriving instance DecidableEq for Except

/-- Every block the loop pushes is a `## ` header or a `- ` bullet, and
merging only ever extends a block on the right. -/
def elemOK (c : Line) : Prop := isTopHeader c = true ∨ isBullet c = true

def changesInv (cs : List Line) : Prop :=
  (∀ c ∈ cs, elemOK c)
  ∧ List.Chain' (fun a b => ¬(isTopHeader a = true ∧ isTopHeader b = true)) cs

lemma isTopHeader_shape {l : Line} (h : isTopHeader l = true) :
    ∃ t, l = '#' :: '#' :: ' ' :: t := by
  unfold isTopHeader at h
  split at h
  · exact ⟨_, rfl⟩
  · cases h

lemma isSubHeader_shape {l : Line} (h : isSubHeader l = true) :
    ∃ t, l = '#' :: '#' :: '#' :: ' ' :: t := by
  unfold isSubHeader at h
  split at h
  · exact ⟨_, rfl⟩
  · cases h

lemma isBullet_shape {l : Line} (h : isBullet l = true) :
    ∃ t, l = '-' :: ' ' :: t := by
  unfold isBullet at h
  split at h
  · exact ⟨_, rfl⟩
  · cases h

lemma isTopHeader_H2 (s : Line) : isTopHeader (H2 ++ s) = true := rfl

example (t : Line) : isSubHeader ('#' :: '#' :: ' ' :: t) = false := rfl
example (t : Line) : isTopHeader ('#' :: '#' :: '#' :: ' ' :: t) = false := rfl
example (t : Line) : isTopHeader ('-' :: ' ' :: t) = false := rfl
example (t : Line) : isNoise ('#' :: '#' :: ' ' :: t) = false := rfl
example (t : Line) : isNoise ('-' :: ' ' :: t) = false := rfl

lemma processLines_top {l : Line} (rest old changes : List Line)
    (h : isTopHeader l = true) :
    processLines (l :: rest) old changes = .ok changes := by
  simp only [processLines, h, if_true]

lemma processLines_blank (rest old changes : List Line) :
    processLines ([] :: rest) old changes = processLines rest old changes := rfl

lemma processLines_sub {l : Line} (rest old changes : List Line)
    (h : isSubHeader l = true) :
    processLines (l :: rest) old changes
      = processLines rest old ((H2 ++ l.drop 4) :: popLastHeader changes) := by
  obtain ⟨t, rfl⟩ := isSubHeader_shape h
  rfl

lemma processLines_old_nil {l : Line} (rest changes : List Line)
    (hTop : isTopHeader l = false) (hEmp : l.isEmpty = false)
    (hSub : isSubHeader l = false) :
    processLines (l :: rest) [] changes = .error .oldExhausted := by
  simp only [processLines, hTop, hEmp, hSub, Bool.false_eq_true, if_false]

lemma processLines_eq {l : Line} (rest old1 changes : List Line)
    (hTop : isTopHeader l = false) (hEmp : l.isEmpty = false)
    (hSub : isSubHeader l = false) :
    processLines (l :: rest) (l :: old1) changes
      = match skipNoise old1 with
        | none => .error .oldExhausted
        | some old2 => processLines rest old2 changes := by
  simp only [processLines, hTop, hEmp, hSub, Bool.false_eq_true, if_false, ne_eq,
    not_true_eq_false]

lemma processLines_bullet {l o : Line} (rest old1 changes : List Line)
    (hTop : isTopHeader l = false) (hEmp : l.isEmpty = false)
    (hSub : isSubHeader l = false) (hne : l ≠ o) (hb : isBullet l = true) :
    processLines (l :: rest) (o :: old1) changes
      = processLines rest (o :: old1) (l :: changes) := by
  simp only [processLines, hTop, hEmp, hSub, Bool.false_eq_true, if_false, ne_eq, hne,
    not_false_eq_true, if_true, hb]

lemma processLines_cont_nil {l o : Line} (rest old1 : List Line)
    (hTop : isTopHeader l = false) (hEmp : l.isEmpty = false)
    (hSub : isSubHeader l = false) (hne : l ≠ o) (hb : isBullet l = false) :
    processLines (l :: rest) (o :: old1) [] = .error .noLastEntry := by
  simp only [processLines, hTop, hEmp, hSub, Bool.false_eq_true, if_false, ne_eq, hne,
    not_false_eq_true, if_true, hb]

lemma processLines_cont {l o c : Line} (rest old1 cs : List Line)
    (hTop : isTopHeader l = false) (hEmp : l.isEmpty = false)
    (hSub : isSubHeader l = false) (hne : l ≠ o) (hb : isBullet l = false) :
    processLines (l :: rest) (o :: old1) (c :: cs)
      = processLines rest (o :: old1) ((c ++ l.drop 1) :: cs) := by
  simp only [processLines, hTop, hEmp, hSub, Bool.false_eq_true, if_false, ne_eq, hne,
    not_false_eq_true, if_true, hb]

lemma skipToMarker_eq_none {ls : List Line} (h : UNRELEASED_HEADER ∉ ls) :
    skipToMarker ls = none := by
  induction ls with
  | nil => rfl
  | cons l ls ih =>
    simp only [List.mem_cons, not_or] at h
    simp only [skipToMarker]
    rw [if_neg (fun hl => h.1 hl.symm), ih h.2]

lemma skipToMarker_isSome {ls : List Line} (h : UNRELEASED_HEADER ∈ ls) :
    ∃ r, skipToMarker ls = some r := by
  induction ls with
  | nil => cases h
  | cons l ls ih =>
    by_cases hl : l = UNRELEASED_HEADER
    · exact ⟨ls, by simp only [skipToMarker, if_pos hl]⟩
    · rcases List.mem_cons.mp h with h1 | h2
      · exact absurd h1.symm hl
      · obtain ⟨r, hr⟩ := ih h2
        exact ⟨r, by simp only [skipToMarker, if_neg hl, hr]⟩

lemma skipNoise_eq_none {ls : List Line} (h : ∀ m ∈ ls, isNoise m = true) :
    skipNoise ls = none := by
  induction ls with
  | nil => rfl
  | cons l ls ih =>
    simp only [skipNoise, h l (List.mem_cons_self l ls), if_true]
    exact ih (fun m hm => h m (List.mem_cons_of_mem l hm))

lemma skipNoise_eq_dropWhile {ls : List Line} (h : ∃ m ∈ ls, isNoise m = false) :
    skipNoise ls = some (ls.dropWhile isNoise) := by
  induction ls with
  | nil => simp at h
  | cons l ls ih =>
    by_cases hl : isNoise l = true
    · obtain ⟨m, hm, hmn⟩ := h
      rcases List.mem_cons.mp hm with h1 | h2
      · rw [h1] at hmn; rw [hmn] at hl; cases hl
      · simp only [skipNoise, hl, if_true, List.dropWhile_cons_of_pos hl]
        exact ih ⟨m, h2, hmn⟩
    · simp [skipNoise, hl, List.dropWhile_cons_of_neg hl]

lemma processLines_no_marker_err (rest : List Line) :
    ∀ old changes, processLines rest old changes ≠ .error .oldNoMarker
      ∧ processLines rest old changes ≠ .error .newNoMarker := by
  induction rest with
  | nil => intro old changes; exact ⟨by simp [processLines], by simp [processLines]⟩
  | cons l rest ih =>
    intro old changes
    by_cases hTop : isTopHeader l = true
    · rw [processLines_top rest old changes hTop]; exact ⟨by simp, by simp⟩
    · by_cases hEmp : l.isEmpty = true
      · have : l = [] := by cases l with | nil => rfl | cons a t => cases hEmp
        subst this
        rw [processLines_blank]; exact ih old changes
      · by_cases hSub : isSubHeader l = true
        · rw [processLines_sub rest old changes hSub]; exact ih _ _
        · rw [Bool.not_eq_true] at hTop hEmp hSub
          cases old with
          | nil =>
            rw [processLines_old_nil rest changes hTop hEmp hSub]
            exact ⟨by simp, by simp⟩
          | cons o old1 =>
            by_cases hne : l = o
            · subst hne
              rw [processLines_eq rest old1 changes hTop hEmp hSub]
              cases hsn : skipNoise old1 with
              | none => exact ⟨by simp, by simp⟩
              | some old2 => exact ih old2 changes
            · by_cases hb : isBullet l = true
              · rw [processLines_bullet rest old1 changes hTop hEmp hSub hne hb]
                exact ih _ _
              · rw [Bool.not_eq_true] at hb
                cases changes with
                | nil =>
                  rw [processLines_cont_nil rest old1 hTop hEmp hSub hne hb]
                  exact ⟨by simp, by simp⟩
                | cons c cs =>
                  rw [processLines_cont rest old1 cs hTop hEmp hSub hne hb]
                  exact ih _ _

/-- Claim C4: if either input document contains no line equal to
`## [Unreleased]`, the extraction fails (the run aborts); when both
contain the marker, extraction never fails with a missing-marker error. -/
theorem c4_marker_precondition (oldDoc newDoc : List Char) :
    ((UNRELEASED_HEADER ∉ splitLines oldDoc ∨ UNRELEASED_HEADER ∉ splitLines newDoc) →
      ∃ e, extract oldDoc newDoc = .error e)
    ∧ (UNRELEASED_HEADER ∈ splitLines oldDoc → UNRELEASED_HEADER ∈ splitLines newDoc →
      extract oldDoc newDoc ≠ .error .oldNoMarker
        ∧ extract oldDoc newDoc ≠ .error .newNoMarker) := by
  constructor
  · intro h
    rcases h with h | h
    · exact ⟨.oldNoMarker, by simp only [extract, skipToMarker_eq_none h]⟩
    · cases h1 : skipToMarker (splitLines oldDoc) with
      | none => exact ⟨.oldNoMarker, by simp only [extract, h1]⟩
      | some r =>
        cases h2 : skipNoise r with
        | none => exact ⟨.oldExhausted, by simp only [extract, h1, h2]⟩
        | some old =>
          exact ⟨.newNoMarker, by simp only [extract, h1, h2, skipToMarker_eq_none h]⟩
  · intro h1 h2
    obtain ⟨r1, hr1⟩ := skipToMarker_isSome h1
    obtain ⟨r2, hr2⟩ := skipToMarker_isSome h2
    cases hsn : skipNoise r1 with
    | none =>
      constructor <;> (simp only [extract, hr1, hr2, hsn]; intro hc; cases hc)
    | some old =>
      cases hp : processLines r2 old [] with
      | error e =>
        have hne := processLines_no_marker_err r2 old []
        rw [hp] at hne
        constructor <;> simp only [extract, hr1, hr2, hsn, hp]
        · exact hne.1
        · exact hne.2
      | ok changes =>
        constructor <;> (simp only [extract, hr1, hr2, hsn, hp]; intro hc; cases hc)

theorem c4_marker_precondition_witness :
    (∃ e, extract ("nothing here").toList
        ("## [Unreleased]\n- a\n## [0.1]").toList = .error e)
    ∧ (extract ("## [Unreleased]\n- a\n## [0.1]").toList
          ("## [Unreleased]\n- a\n## [0.1]").toList ≠ .error .oldNoMarker
      ∧ extract ("## [Unreleased]\n- a\n## [0.1]").toList
          ("## [Unreleased]\n- a\n## [0.1]").toList ≠ .error .newNoMarker) :=
  ⟨(c4_marker_precondition _ _).1 (Or.inl (by decide)),
   (c4_marker_precondition _ _).2 (by decide) (by decide)⟩

/-- Claim C9: when every line after the unreleased marker in the old
document is blank or a `### ` sub-section header, the run dies on a
failed `peek().unwrap()` (modelled as the `oldExhausted` error), for any
new document. -/
theorem c9_old_all_noise_panics (oldDoc newDoc : List Char) (rest : List Line)
    (h1 : skipToMarker (splitLines oldDoc) = some rest)
    (h2 : ∀ l ∈ rest, isNoise l = true) :
    extract oldDoc newDoc = .error .oldExhausted := by
  simp only [extract, h1, skipNoise_eq_none h2]

theorem c9_old_all_noise_panics_witness :
    extract ("## [Unreleased]\n\n### Added").toList ("anything").toList
      = .error .oldExhausted :=
  c9_old_all_noise_panics _ _ [[], ("### Added").toList] (by decide) (by decide)

/-- Claim C5 counterexample: a continuation line (`zfoo`) reached while
only a sub-section header block has been emitted does not abort the
extraction; it is merged into the header block, which the trailing
suppression then drops, so the whole run returns an empty sequence. -/
theorem c5_counterexample :
    extract ("## [Unreleased]\n- x\n## [0.1]").toList
        ("## [Unreleased]\n### A\nzfoo\n## [0.1]").toList = .ok []
    ∧ processLines [("zfoo").toList] [("- x").toList] [("## A").toList]
        = .ok [("## Afoo").toList] := by
  constructor
  · decide
  · decide

/-- Claim C5 (amended): a non-bullet new content line aborts the run
(`last_mut().unwrap()` panic, modelled as `noLastEntry`) only when no
block at all has been emitted yet; when any block exists — even a
sub-section header block — the line minus its first character is
appended to that block. -/
theorem c5_continuation_no_block (l o : Line) (rest old1 : List Line) (c : Line)
    (cs : List Line) (hTop : isTopHeader l = false) (hEmp : l.isEmpty = false)
    (hSub : isSubHeader l = false) (hb : isBullet l = false) (hne : l ≠ o) :
    processLines (l :: rest) (o :: old1) [] = .error .noLastEntry
    ∧ processLines (l :: rest) (o :: old1) (c :: cs)
        = processLines rest (o :: old1) ((c ++ l.drop 1) :: cs) :=
  ⟨processLines_cont_nil rest old1 hTop hEmp hSub hne hb,
   processLines_cont rest old1 cs hTop hEmp hSub hne hb⟩

theorem c5_continuation_no_block_witness :
    processLines [("zfoo").toList] [("- x").toList] [] = .error .noLastEntry
    ∧ processLines [("zfoo").toList] [("- x").toList] [("## A").toList]
        = processLines [] [("- x").toList]
            [(("## A").toList ++ ("zfoo").toList.drop 1)] :=
  c5_continuation_no_block _ _ [] [] (("## A").toList) []
    (by decide) (by decide) (by decide) (by decide) (by decide)

/-- Claim C7: everything at or after a `## ` top-level header line in
the new document is ignored: the result is the same as if the document
ended at that header. -/
theorem c7_terminal_boundary (l : Line) (hl : isTopHeader l = true)
    (new1 junk old changes : List Line) :
    processLines (new1 ++ l :: junk) old changes
      = processLines (new1 ++ [l]) old changes := by
  induction new1 generalizing old changes with
  | nil =>
    rw [List.nil_append, List.nil_append, processLines_top _ _ _ hl,
        processLines_top _ _ _ hl]
  | cons m m1 ih =>
    rw [List.cons_append, List.cons_append]
    by_cases hTop : isTopHeader m = true
    · rw [processLines_top _ _ _ hTop, processLines_top _ _ _ hTop]
    · rw [Bool.not_eq_true] at hTop
      by_cases hEmp : m.isEmpty = true
      · have hm : m = [] := by cases m with | nil => rfl | cons a t => cases hEmp
        subst hm
        rw [processLines_blank, processLines_blank]
        exact ih old changes
      · rw [Bool.not_eq_true] at hEmp
        by_cases hSub : isSubHeader m = true
        · rw [processLines_sub _ _ _ hSub, processLines_sub _ _ _ hSub]
          exact ih _ _
        · rw [Bool.not_eq_true] at hSub
          cases old with
          | nil =>
            rw [processLines_old_nil _ _ hTop hEmp hSub,
                processLines_old_nil _ _ hTop hEmp hSub]
          | cons o old1 =>
            by_cases hne : m = o
            · subst hne
              rw [processLines_eq _ _ _ hTop hEmp hSub,
                  processLines_eq _ _ _ hTop hEmp hSub]
              cases hsn : skipNoise old1 with
              | none => rfl
              | some old2 => exact ih old2 changes
            · by_cases hb : isBullet m = true
              · rw [processLines_bullet _ _ _ hTop hEmp hSub hne hb,
                    processLines_bullet _ _ _ hTop hEmp hSub hne hb]
                exact ih _ _
              · rw [Bool.not_eq_true] at hb
                cases changes with
                | nil =>
                  rw [processLines_cont_nil _ _ hTop hEmp hSub hne hb,
                      processLines_cont_nil _ _ hTop hEmp hSub hne hb]
                | cons c cs =>
                  rw [processLines_cont _ _ _ hTop hEmp hSub hne hb,
                      processLines_cont _ _ _ hTop hEmp hSub hne hb]
                  exact ih _ _

theorem c7_terminal_boundary_witness :
    processLines [("- a").toList, ("## [0.1]").toList, ("- junk").toList]
        [("- a").toList] []
      = processLines [("- a").toList, ("## [0.1]").toList] [("- a").toList] [] :=
  c7_terminal_boundary (("## [0.1]").toList) (by decide)
    [("- a").toList] [("- junk").toList] [("- a").toList] []

lemma processLines_conts (o : Line) (os : List Line) (conts : List Line)
    (hc : ∀ c ∈ conts, isTopHeader c = false ∧ c.isEmpty = false
            ∧ isSubHeader c = false ∧ isBullet c = false ∧ c ≠ o) :
    ∀ rest acc cs, processLines (conts ++ rest) (o :: os) (acc :: cs)
      = processLines rest (o :: os)
          ((acc ++ (conts.map (fun c => c.drop 1)).flatten) :: cs) := by
  induction conts with
  | nil => intro rest acc cs; simp
  | cons c cts ih =>
    intro rest acc cs
    obtain ⟨h1, h2, h3, h4, h5⟩ := hc c (List.mem_cons_self c cts)
    rw [List.cons_append, processLines_cont _ _ _ h1 h2 h3 h5 h4,
        ih (fun x hx => hc x (List.mem_cons_of_mem c hx)) rest (acc ++ c.drop 1) cs]
    simp [List.append_assoc]

/-- Claim C3: a new bullet line followed by a run of continuation lines
(non-blank, non-header, non-bullet, unequal to the old cursor's line)
produces one merged block: the bullet's text followed by each
continuation minus its first character, and processing resumes after the
run with the old cursor untouched. -/
theorem c3_continuation_merging (bullet o : Line) (conts rest os cs : List Line)
    (hb : isBullet bullet = true) (hbne : bullet ≠ o)
    (hc : ∀ c ∈ conts, isTopHeader c = false ∧ c.isEmpty = false
            ∧ isSubHeader c = false ∧ isBullet c = false ∧ c ≠ o) :
    processLines (bullet :: (conts ++ rest)) (o :: os) cs
      = processLines rest (o :: os)
          ((bullet ++ (conts.map (fun c => c.drop 1)).flatten) :: cs) := by
  obtain ⟨t, rfl⟩ := isBullet_shape hb
  rw [processLines_bullet _ _ _ (by rfl) (by rfl) (by rfl) hbne hb]
  exact processLines_conts _ _ _ hc rest _ cs

theorem c3_continuation_merging_witness :
    processLines (("- b").toList :: ([(" one").toList, (" two").toList] ++ []))
        [("- x").toList] []
      = processLines [] [("- x").toList]
          [("- b").toList
            ++ (([(" one").toList, (" two").toList]).map (fun c => c.drop 1)).flatten] :=
  c3_continuation_merging _ _ _ [] [] [] (by decide) (by decide) (by decide)

lemma takeWhile_ne_maximal (o : Line) (l : List Line) :
    l.takeWhile (fun s => s != o) = l
    ∨ l.get? (l.takeWhile (fun s => s != o)).length = some o := by
  induction l with
  | nil => left; rfl
  | cons a l ih =>
    by_cases ha : (a != o) = true
    · rw [List.takeWhile_cons_of_pos (p := fun s => s != o) ha]
      rcases ih with h | h
      · left; rw [h]
      · right
        simpa using h
    · right
      rw [List.takeWhile_cons_of_neg (p := fun s => s != o) ha]
      simp only [bne_iff_ne, ne_eq, not_not] at ha
      simp [ha]

/-- Claim C6: with the old list's head as sentinel, the feed extractor
returns exactly the longest leading segment of the new list free of
the sentinel: it is a leading part of the new list, contains no entry equal
to the sentinel, and stops only at the list's end or at an entry equal
to the sentinel; on the spec's example it returns url5 and url4. -/
theorem c6_feed_extractor (o : Line) (os new_entries : List Line) :
    (∃ t, new_entries = extract_new (o :: os) new_entries ++ t)
    ∧ (∀ x ∈ extract_new (o :: os) new_entries, x ≠ o)
    ∧ (extract_new (o :: os) new_entries = new_entries
        ∨ new_entries.get? (extract_new (o :: os) new_entries).length = some o)
    ∧ extract_new [("url3").toList]
        [("url5").toList, ("url4").toList, ("url3").toList, ("url2").toList]
        = [("url5").toList, ("url4").toList] := by
  refine ⟨⟨new_entries.dropWhile (fun s => s != o), ?_⟩, ?_, ?_, by decide⟩
  · unfold extract_new
    exact (List.takeWhile_append_dropWhile ..).symm
  · intro x hx
    unfold extract_new at hx
    have h := List.mem_takeWhile_imp hx
    simpa using h
  · exact takeWhile_ne_maximal o new_entries

lemma isTopHeader_not_noise {m : Line} (h : isTopHeader m = true) : isNoise m = false := by
  obtain ⟨t, rfl⟩ := isTopHeader_shape h
  rfl

lemma isSubHeader_not_top {m : Line} (h : isSubHeader m = true) : isTopHeader m = false := by
  obtain ⟨t, rfl⟩ := isSubHeader_shape h
  rfl

lemma isSubHeader_noise {m : Line} (h : isSubHeader m = true) : isNoise m = true := by
  unfold isNoise
  rw [h, Bool.or_true]

lemma processLines_self (rest : List Line) :
    ∀ cs, (∃ l ∈ rest, isTopHeader l = true)
      → (cs = [] ∨ ∃ s, cs = [H2 ++ s])
      → ∃ cs2, processLines rest (rest.dropWhile isNoise) cs = .ok cs2
          ∧ (cs2 = [] ∨ ∃ s, cs2 = [H2 ++ s]) := by
  induction rest with
  | nil =>
    intro cs hb _
    simp at hb
  | cons l rs ih =>
    intro cs hb hcs
    by_cases hTop : isTopHeader l = true
    · exact ⟨cs, processLines_top _ _ _ hTop, hcs⟩
    · rw [Bool.not_eq_true] at hTop
      have hbrs : ∃ m ∈ rs, isTopHeader m = true := by
        obtain ⟨m, hm, hmt⟩ := hb
        rcases List.mem_cons.mp hm with h | h
        · rw [h] at hmt; rw [hmt] at hTop; cases hTop
        · exact ⟨m, h, hmt⟩
      by_cases hEmp : l.isEmpty = true
      · have hl : l = [] := by cases l with | nil => rfl | cons a t => cases hEmp
        subst hl
        rw [List.dropWhile_cons_of_pos (by rfl), processLines_blank]
        exact ih cs hbrs hcs
      · rw [Bool.not_eq_true] at hEmp
        by_cases hSub : isSubHeader l = true
        · rw [List.dropWhile_cons_of_pos (isSubHeader_noise hSub),
              processLines_sub _ _ _ hSub]
          have hpop : popLastHeader cs = [] := by
            rcases hcs with h | ⟨s, h⟩
            · rw [h]; rfl
            · rw [h]
              simp [popLastHeader, isTopHeader_H2]
          rw [hpop]
          exact ih _ hbrs (Or.inr ⟨l.drop 4, rfl⟩)
        · rw [Bool.not_eq_true] at hSub
          have hnoise : isNoise l = false := by
            unfold isNoise
            rw [hEmp, hSub, Bool.or_false]
          rw [List.dropWhile_cons_of_neg (by rw [hnoise]; exact Bool.false_ne_true)]
          rw [processLines_eq _ _ _ hTop hEmp hSub]
          obtain ⟨m, hm, hmt⟩ := hbrs
          rw [skipNoise_eq_dropWhile ⟨m, hm, isTopHeader_not_noise hmt⟩]
          exact ih cs ⟨m, hm, hmt⟩ hcs

/-- Claim C1 counterexample: the single-line document consisting of just
the unreleased marker is well-formed in the claim's sense, yet
`extract(D, D)` dies on the old cursor's `peek().unwrap()` rather than
returning an empty sequence. -/
theorem c1_counterexample :
    extract ("## [Unreleased]").toList ("## [Unreleased]").toList
        = .error .oldExhausted
    ∧ extract ("## [Unreleased]").toList ("## [Unreleased]").toList ≠ .ok [] := by
  exact ⟨by decide, by decide⟩

/-- Claim C1 (amended): for every document that contains the unreleased
marker and, after it, at least one `## ` top-level header line,
extracting the document against itself returns the empty sequence. -/
theorem c1_extract_self (d : List Char) (rest : List Line)
    (h1 : skipToMarker (splitLines d) = some rest)
    (h2 : ∃ l ∈ rest, isTopHeader l = true) :
    extract d d = .ok [] := by
  obtain ⟨m, hm, hmt⟩ := h2
  have hsn : skipNoise rest = some (rest.dropWhile isNoise) :=
    skipNoise_eq_dropWhile ⟨m, hm, isTopHeader_not_noise hmt⟩
  obtain ⟨cs2, hok, hinv⟩ := processLines_self rest [] ⟨m, hm, hmt⟩ (Or.inl rfl)
  simp only [extract, h1, hsn, hok]
  rcases hinv with h | ⟨s, h⟩
  · rw [h]
    rfl
  · rw [h]
    simp [popLastHeader, isTopHeader_H2]

theorem c1_extract_self_witness :
    extract ("# Changelog\n\n## [Unreleased]\n\n### Added\n- thing one\n\n## [0.9.0]\n- older").toList
        ("# Changelog\n\n## [Unreleased]\n\n### Added\n- thing one\n\n## [0.9.0]\n- older").toList
      = .ok [] :=
  c1_extract_self _
    [[], ("### Added").toList, ("- thing one").toList, [], ("## [0.9.0]").toList,
      ("- older").toList]
    (by decide) (by decide)

lemma isTopHeader_append {c : Line} (t : Line) (h : elemOK c) :
    isTopHeader (c ++ t) = isTopHeader c := by
  rcases h with h | h
  · obtain ⟨u, rfl⟩ := isTopHeader_shape h
    rfl
  · obtain ⟨u, rfl⟩ := isBullet_shape h
    rfl

lemma elemOK_append {c : Line} (t : Line) (h : elemOK c) : elemOK (c ++ t) := by
  rcases h with h | h
  · obtain ⟨u, rfl⟩ := isTopHeader_shape h
    exact Or.inl rfl
  · obtain ⟨u, rfl⟩ := isBullet_shape h
    exact Or.inr rfl

lemma isBullet_not_top {c : Line} (h : isBullet c = true) : isTopHeader c = false := by
  obtain ⟨u, rfl⟩ := isBullet_shape h
  rfl

lemma popLastHeader_head {cs : List Line} (hinv : changesInv cs) :
    ∀ b ∈ (popLastHeader cs).head?, isTopHeader b = false := by
  obtain ⟨hel, hch⟩ := hinv
  cases cs with
  | nil => intro b hb; cases hb
  | cons c cs1 =>
    by_cases hc : isTopHeader c = true
    · rw [popLastHeader, if_pos hc]
      intro b hb
      have h5 := (List.chain'_cons'.mp hch).1 b hb
      by_cases hbt : isTopHeader b = true
      · exact absurd ⟨hc, hbt⟩ h5
      · rwa [Bool.not_eq_true] at hbt
    · rw [popLastHeader, if_neg hc]
      intro b hb
      cases hb
      rwa [Bool.not_eq_true] at hc

lemma popLastHeader_chain {cs : List Line} (hinv : changesInv cs) :
    List.Chain' (fun a b => ¬(isTopHeader a = true ∧ isTopHeader b = true))
      (popLastHeader cs) := by
  obtain ⟨hel, hch⟩ := hinv
  cases cs with
  | nil => exact List.chain'_nil
  | cons c cs1 =>
    by_cases hc : isTopHeader c = true
    · rw [popLastHeader, if_pos hc]
      exact (List.chain'_cons'.mp hch).2
    · rwa [popLastHeader, if_neg hc]

lemma changesInv_push_header {cs : List Line} (s : Line) (hinv : changesInv cs) :
    changesInv ((H2 ++ s) :: popLastHeader cs) := by
  constructor
  · intro c hc
    rcases List.mem_cons.mp hc with h | h
    · rw [h]
      exact Or.inl (isTopHeader_H2 s)
    · apply hinv.1
      cases cs with
      | nil => cases h
      | cons a as =>
        rw [popLastHeader] at h
        split at h
        · exact List.mem_cons_of_mem a h
        · exact h
  · rw [List.chain'_cons']
    refine ⟨?_, popLastHeader_chain hinv⟩
    intro b hb
    intro hcon
    rw [popLastHeader_head hinv b hb] at hcon
    cases hcon.2

lemma changesInv_push_bullet {cs : List Line} (l : Line) (hb : isBullet l = true)
    (hinv : changesInv cs) : changesInv (l :: cs) := by
  constructor
  · intro c hc
    rcases List.mem_cons.mp hc with h | h
    · rw [h]
      exact Or.inr hb
    · exact hinv.1 c h
  · rw [List.chain'_cons']
    refine ⟨?_, hinv.2⟩
    intro b _ hcon
    rw [isBullet_not_top hb] at hcon
    cases hcon.1

lemma changesInv_merge {c : Line} {cs : List Line} (t : Line)
    (hinv : changesInv (c :: cs)) : changesInv ((c ++ t) :: cs) := by
  obtain ⟨hel, hch⟩ := hinv
  have hcOK : elemOK c := hel c (List.mem_cons_self c cs)
  constructor
  · intro x hx
    rcases List.mem_cons.mp hx with h | h
    · rw [h]
      exact elemOK_append t hcOK
    · exact hel x (List.mem_cons_of_mem c h)
  · rw [List.chain'_cons'] at hch ⊢
    refine ⟨?_, hch.2⟩
    intro b hb hcon
    rw [isTopHeader_append t hcOK] at hcon
    exact hch.1 b hb hcon

lemma processLines_inv (rest : List Line) :
    ∀ old cs cs2, processLines rest old cs = .ok cs2 → changesInv cs → changesInv cs2 := by
  induction rest with
  | nil =>
    intro old cs cs2 h hinv
    injection h with h
    rwa [← h]
  | cons l rs ih =>
    intro old cs cs2 h hinv
    by_cases hTop : isTopHeader l = true
    · rw [processLines_top _ _ _ hTop] at h
      injection h with h
      rwa [← h]
    · rw [Bool.not_eq_true] at hTop
      by_cases hEmp : l.isEmpty = true
      · have hl : l = [] := by cases l with | nil => rfl | cons a u => cases hEmp
        subst hl
        rw [processLines_blank] at h
        exact ih old cs cs2 h hinv
      · rw [Bool.not_eq_true] at hEmp
        by_cases hSub : isSubHeader l = true
        · rw [processLines_sub _ _ _ hSub] at h
          exact ih _ _ _ h (changesInv_push_header _ hinv)
        · rw [Bool.not_eq_true] at hSub
          cases old with
          | nil =>
            rw [processLines_old_nil _ _ hTop hEmp hSub] at h
            cases h
          | cons o old1 =>
            by_cases hne : l = o
            · subst hne
              rw [processLines_eq _ _ _ hTop hEmp hSub] at h
              cases hsn : skipNoise old1 with
              | none =>
                rw [hsn] at h
                cases h
              | some old2 =>
                rw [hsn] at h
                exact ih old2 cs cs2 h hinv
            · by_cases hb : isBullet l = true
              · rw [processLines_bullet _ _ _ hTop hEmp hSub hne hb] at h
                exact ih _ _ _ h (changesInv_push_bullet l hb hinv)
              · rw [Bool.not_eq_true] at hb
                cases cs with
                | nil =>
                  rw [processLines_cont_nil _ _ hTop hEmp hSub hne hb] at h
                  cases h
                | cons c cs1 =>
                  rw [processLines_cont _ _ _ hTop hEmp hSub hne hb] at h
                  exact ih _ _ _ h (changesInv_merge _ hinv)

/-- Claim C2: a successful extraction never ends with a `## ` header
block, and never has two adjacent `## ` header blocks. -/
theorem c2_no_empty_sections (oldDoc newDoc : List Char) (blocks : List Line)
    (h : extract oldDoc newDoc = .ok blocks) :
    (∀ b, blocks.getLast? = some b → isTopHeader b = false)
    ∧ List.Chain' (fun a b => ¬(isTopHeader a = true ∧ isTopHeader b = true)) blocks := by
  unfold extract at h
  cases h1 : skipToMarker (splitLines oldDoc) with
  | none => simp only [h1] at h; cases h
  | some r1 =>
    simp only [h1] at h
    cases h2 : skipNoise r1 with
    | none => simp only [h2] at h; cases h
    | some old =>
      simp only [h2] at h
      cases h3 : skipToMarker (splitLines newDoc) with
      | none => simp only [h3] at h; cases h
      | some r2 =>
        simp only [h3] at h
        cases h4 : processLines r2 old [] with
        | error e => simp only [h4] at h; cases h
        | ok cs2 =>
          simp only [h4, Except.ok.injEq] at h
          subst h
          have hinv : changesInv cs2 :=
            processLines_inv r2 old [] cs2 h4 ⟨by simp, List.chain'_nil⟩
          constructor
          · intro b hb
            rw [List.getLast?_reverse] at hb
            exact popLastHeader_head hinv b hb
          · rw [List.chain'_reverse]
            apply List.Chain'.imp _ (popLastHeader_chain hinv)
            intro a b hab hcon
            exact hab ⟨hcon.2, hcon.1⟩

theorem c2_no_empty_sections_witness :
    (∀ b, ([("## Added").toList, ("- b").toList] : List Line).getLast? = some b →
      isTopHeader b = false)
    ∧ List.Chain' (fun a b => ¬(isTopHeader a = true ∧ isTopHeader b = true))
        [("## Added").toList, ("- b").toList] :=
  c2_no_empty_sections ("## [Unreleased]\n- a\n## [0.1]").toList
    ("## [Unreleased]\n### Added\n- a\n- b\n## [0.1]").toList _ (by decide)

lemma splitLines_newline_free {l : Line} (h : '\n' ∉ l) : splitLines l = [l] := by
  induction l with
  | nil => rfl
  | cons c cs ih =>
    simp only [List.mem_cons, not_or] at h
    simp only [splitLines]
    rw [if_neg (fun hc => h.1 hc.symm), ih h.2]

lemma splitLines_append {l : Line} (t : List Char) (h : '\n' ∉ l) :
    splitLines (l ++ '\n' :: t) = l :: splitLines t := by
  induction l with
  | nil =>
    rw [List.nil_append]
    simp [splitLines]
  | cons c cs ih =>
    simp only [List.mem_cons, not_or] at h
    rw [List.cons_append]
    simp only [splitLines]
    rw [if_neg (fun hc => h.1 hc.symm), ih h.2]

lemma splitLines_joinLines {cs : List Line} (hne : cs ≠ [])
    (h : ∀ l ∈ cs, '\n' ∉ l) : splitLines (joinLines cs) = cs := by
  induction cs with
  | nil => cases hne rfl
  | cons c cs1 ih =>
    cases cs1 with
    | nil =>
      simp only [joinLines]
      exact splitLines_newline_free (h c (List.mem_cons_self c []))
    | cons d cs2 =>
      simp only [joinLines]
      rw [splitLines_append _ (h c (List.mem_cons_self c (d :: cs2))),
          ih (by simp) (fun x hx => h x (List.mem_cons_of_mem c hx))]

/-- Claim C8 counterexample: the formatted message for a single bullet
block is the title line followed directly by the block — there is no
blank line between the title and the first block. -/
theorem c8_counterexample :
    formatMessage [("- b").toList] = ("# Veloren News!\n- b").toList
    ∧ formatMessage [("- b").toList] ≠ ("# Veloren News!\n\n- b").toList :=
  ⟨by decide, by decide⟩

/-- Claim C8 (amended): for every non-empty block sequence of
newline-free blocks, the formatted message splits back into exactly the
title line followed by the blocks, one per line, with no blank line
after the title. -/
theorem c8_format_lines (cs : List Line) (hne : cs ≠ [])
    (h : ∀ l ∈ cs, '\n' ∉ l) :
    splitLines (formatMessage cs) = ("# Veloren News!").toList :: cs := by
  unfold formatMessage
  have ht : TITLE ++ joinLines cs
      = ("# Veloren News!").toList ++ '\n' :: joinLines cs := rfl
  rw [ht, splitLines_append _ (by decide), splitLines_joinLines hne h]

theorem c8_format_lines_witness :
    splitLines (formatMessage [("## Added").toList, ("- b").toList])
      = [("# Veloren News!").toList, ("## Added").toList, ("- b").toList] :=
  c8_format_lines [("## Added").toList, ("- b").toList] (by decide) (by decide)

lemma utf8EncodeChar_first (c : Char) :
    ∃ b t, utf8EncodeChar c = b :: t ∧ (b < 128 ∨ 192 ≤ b) := by
  unfold utf8EncodeChar
  by_cases h1 : c.toNat < 128
  · rw [if_pos h1]
    exact ⟨_, _, rfl, Or.inl h1⟩
  · rw [if_neg h1]
    by_cases h2 : c.toNat < 2048
    · rw [if_pos h2]
      exact ⟨_, _, rfl, Or.inr (by omega)⟩
    · rw [if_neg h2]
      by_cases h3 : c.toNat < 65536
      · rw [if_pos h3]
        exact ⟨_, _, rfl, Or.inr (by omega)⟩
      · rw [if_neg h3]
        exact ⟨_, _, rfl, Or.inr (by omega)⟩

lemma utf8EncodeChar_multibyte (c : Char) (h : 128 ≤ c.toNat) :
    ∃ b0 b1 t, utf8EncodeChar c = b0 :: b1 :: t ∧ 128 ≤ b1 ∧ b1 < 192 := by
  unfold utf8EncodeChar
  rw [if_neg (by omega)]
  by_cases h2 : c.toNat < 2048
  · rw [if_pos h2]
    refine ⟨_, _, _, rfl, by omega, ?_⟩
    have hm := Nat.mod_lt c.toNat (show 0 < 64 by omega)
    omega
  · rw [if_neg h2]
    by_cases h3 : c.toNat < 65536
    · rw [if_pos h3]
      refine ⟨_, _, _, rfl, by omega, ?_⟩
      have hm := Nat.mod_lt (c.toNat / 64) (show 0 < 64 by omega)
      omega
    · rw [if_neg h3]
      refine ⟨_, _, _, rfl, by omega, ?_⟩
      have hm := Nat.mod_lt (c.toNat / 4096) (show 0 < 64 by omega)
      omega

/-- Claim C10: the byte slice `&line[1..]` is well-defined exactly when
the line's first character is a single UTF-8 byte: it then drops that
byte; when the first character is multi-byte, byte offset 1 is a
continuation byte and the slice panics. -/
theorem c10_slice_first_byte (c : Char) (cs : List Char) :
    (c.toNat < 128 → sliceFrom1 (utf8Encode (c :: cs)) = some (utf8Encode cs))
    ∧ (128 ≤ c.toNat → sliceFrom1 (utf8Encode (c :: cs)) = none) := by
  constructor
  · intro h
    have he : utf8Encode (c :: cs) = c.toNat :: utf8Encode cs := by
      simp only [utf8Encode, List.map_cons, List.flatten_cons, utf8EncodeChar, if_pos h]
      rfl
    rw [he]
    unfold sliceFrom1
    rw [if_pos]
    · rfl
    · refine ⟨by simp, ?_⟩
      unfold charBoundary
      rw [if_neg (by omega)]
      cases cs with
      | nil => simp [utf8Encode]
      | cons d ds =>
        obtain ⟨b, t, hb, hor⟩ := utf8EncodeChar_first d
        have hget : (c.toNat :: utf8Encode (d :: ds)).get? 1 = some b := by
          simp [utf8Encode, hb]
        rw [hget]
        rcases hor with h1 | h1 <;> simp [h1]
  · intro h
    obtain ⟨b0, b1, t, he, hb1, hb2⟩ := utf8EncodeChar_multibyte c h
    have henc : utf8Encode (c :: cs) = b0 :: b1 :: (t ++ utf8Encode cs) := by
      simp [utf8Encode, he]
    rw [henc]
    unfold sliceFrom1
    rw [if_neg]
    intro hcon
    have hcb := hcon.2
    unfold charBoundary at hcb
    rw [if_neg (by omega)] at hcb
    have hget : (b0 :: b1 :: (t ++ utf8Encode cs)).get? 1 = some b1 := rfl
    simp only [hget] at hcb
    have e1 : decide (b1 < 128) = false := by simp; omega
    have e2 : decide (192 ≤ b1) = false := by simp; omega
    rw [e1, e2] at hcb
    cases hcb

theorem c10_slice_first_byte_witness :
    sliceFrom1 (utf8Encode ('a' :: ("x").toList)) = some (utf8Encode ("x").toList)
    ∧ sliceFrom1 (utf8Encode ('é' :: ("x").toList)) = none :=
  ⟨(c10_slice_first_byte 'a' (("x").toList)).1 (by decide),
   (c10_slice_first_byte 'é' (("x").toList)).2 (by decide)⟩
